import Mathlib

/-!
Verification of the `keal` launcher UI (`src/ui/mod.rs`) against its
specification. The UI module is embedded shallowly: text is a list of
characters with UTF-8 byte offsets (Rust `&str` indices are byte offsets),
`f32` quantities are modelled by `Rat`, and the external collaborators
(macroquad's `measure_text`, the async manager, the plugin crate types)
appear as explicit parameters or spec-modelled structures.
-/

/-- Byte length of a character list under UTF-8, mirroring Rust's
`str::len` for the corresponding string. -/
def utf8Len : List Char → Nat
  | [] => 0
  | c :: t => c.utf8Size + utf8Len t

/-- `charIndicesAux o t` mirrors Rust's `str::char_indices` on the suffix
`t`, where `o` is the byte offset at which `t` starts. -/
def charIndicesAux (o : Nat) : List Char → List (Nat × Char)
  | [] => []
  | c :: t => (o, c) :: charIndicesAux (o + c.utf8Size) t

/-- Rust's `str::char_indices`: each character paired with its byte offset. -/
def charIndices (t : List Char) : List (Nat × Char) :=
  charIndicesAux 0 t

/-- `boundary t n = true` iff byte offset `n` is a character boundary of `t`
(including `0` and `utf8Len t`). Rust guarantees slicing a `&str` is only
legal at such offsets. -/
def boundary : List Char → Nat → Bool
  | _, 0 => true
  | [], _ + 1 => false
  | c :: t, n + 1 =>
    if c.utf8Size ≤ n + 1 then boundary t (n + 1 - c.utf8Size) else false

/-- Number of characters of `t` that lie entirely before byte offset `o`. -/
def charsBefore : List Char → Nat → Nat
  | [], _ => 0
  | c :: t, o => if c.utf8Size ≤ o then charsBefore t (o - c.utf8Size) + 1 else 0

/-- Rust byte-offset slicing `&t[a..b]`, expressed through character counts
(the offsets used in the UI are always character boundaries). -/
def sliceBytes (t : List Char) (a b : Nat) : List Char :=
  (t.drop (charsBefore t a)).take (charsBefore t b - charsBefore t a)

/-- Result of `measure_text_wrap`: byte offsets at which the text wraps,
plus total width and height (`src/ui/mod.rs:60`). -/
structure WrapInfo where
  splits : List Nat
  width : Rat
  height : Rat
  deriving DecidableEq

instance : Inhabited WrapInfo := ⟨⟨[], 0, 0⟩⟩

/-- Loop state of the `for (index, c)` loop inside `measure_text_wrap`
(`src/ui/mod.rs:21-58`): the accumulated splits, running height, running
line width, current line start and previous character offset. -/
structure WrapState where
  splits : List Nat
  height : Rat
  running : Rat
  lineStart : Nat
  last : Nat
  deriving DecidableEq

/-- One iteration of the `measure_text_wrap` loop body. `m` is macroquad's
`measure_text` width (external, abstracted as a function of the measured
slice); `maxw` is the already-clamped maximum width. -/
def wrapStep (m : List Char → Rat) (maxw fs lh : Rat) (text : List Char)
    (st : WrapState) (ic : Nat × Char) : WrapState :=
  let dims := m (sliceBytes text st.last ic.1)
  if ic.2 = '\n' ∨ maxw ≤ st.running + dims then
    { splits := st.splits ++ [st.last], height := st.height + fs + lh,
      running := 0 + dims, lineStart := ic.1, last := ic.1 }
  else
    { st with running := st.running + dims, last := ic.1 }

/-- `measure_text_wrap` (`src/ui/mod.rs:21-58`): clamps the maximum width to
at least two glyphs, walks `char_indices` skipping the first character,
wraps on newline or width overflow, then appends a final split at
`text.len()` when a line remains open. -/
def measure_text_wrap (m : List Char → Rat) (max_width fs lh : Rat)
    (text : List Char) : WrapInfo :=
  let maxw := max max_width (fs * 2)
  let st0 : WrapState := ⟨[], fs, 0, 0, 0⟩
  let st := ((charIndices text).drop 1).foldl (wrapStep m maxw fs lh text) st0
  if st.lineStart < utf8Len text then
    let dims := m (sliceBytes text st.last (utf8Len text))
    { splits := st.splits ++ [utf8Len text],
      width := if st.lineStart = 0 then st.running + dims else maxw,
      height := st.height }
  else
    { splits := st.splits,
      width := if st.lineStart = 0 then st.running else maxw,
      height := st.height }

/-! ## Data model of the UI (`src/ui/mod.rs`), with spec-modelled externals -/

/-- Modelled from the spec: a `Label` is "a lightweight reference to an
entry's identity (plugin id + index)" (spec §3); `src/plugin/entry.rs` is
not under `src/`. -/
structure Label where
  plugin : Nat
  index : Nat
  deriving DecidableEq

/-- Modelled from the spec: an `OwnedEntry` produced by a plugin — "name
(text), optional comment (text), optional icon identifier" plus its label
(spec §3); only the fields read by `src/ui/mod.rs` are modelled
(`src/plugin/entry.rs` is not under `src/`). -/
structure OwnedEntry where
  name : List Char
  comment : Option (List Char)
  icon : Option String
  label : Label
  deriving DecidableEq

instance : Inhabited OwnedEntry := ⟨⟨[], Option.none, Option.none, ⟨0, 0⟩⟩⟩

/-- Modelled from the spec: an opaque icon cache value (`src/icon.rs` is not
under `src/`); the UI only stores and replaces it wholesale. -/
structure IconCache where
  cacheId : Nat
  deriving DecidableEq

/-- Modelled from the spec: a plugin as seen by the UI — "each plugin
declares a unique non-empty prefix string" (spec §4.3). `pfx` models the
Rust field `plugin.prefix` (`prefix` is a Lean keyword). -/
structure Plugin where
  pfx : String
  deriving DecidableEq

/-- Modelled from the spec: the async manager's observable interface used by
`handle_action` — "`current()`: returns the plugin currently addressed by
the input's prefix, if any" (spec §4.1); `src/ui/async_manager.rs` is not
under `src/`. -/
structure ManagerView where
  current : Option Plugin
  deriving DecidableEq

/-- Modelled from the spec: an `Exec` payload is a "command+args" pair
(spec §3); the concrete `std::process::Command` is external. -/
structure Cmd where
  program : String
  args : List String
  deriving DecidableEq

/-- Modelled from the spec: the `Action` enum (spec §3) — "one of `None`,
`ChangeInput(text)`, `ChangeQuery(text)`, `Exec(command+args)`,
`PrintAndClose(text)`, `Fork`, `WaitAndClose`"; `src/plugin/mod.rs` is not
under `src/` but every variant is matched in `Keal::handle_action`.
(Namespaced under the crate name `keal` because Mathlib already declares a
root-level `Action`.) -/
inductive keal.Action where
  | None
  | ChangeInput (text : String)
  | ChangeQuery (text : String)
  | Exec (command : Cmd)
  | PrintAndClose (text : String)
  | Fork
  | WaitAndClose
  deriving DecidableEq

/-- `async_manager::Event`, the UI→worker events sent by `src/ui/mod.rs`
(`UpdateInput` in `update_input`, `Launch` in `update`). -/
inductive Event where
  | UpdateInput (text : String) (from_user : Bool)
  | Launch (label : Option Label)
  deriving DecidableEq

/-- `Message` (`src/ui/mod.rs:128-137`): the worker→UI channel payload. -/
inductive Message where
  | TextInput (text : String)
  | Launch (label : Option Label)
  | IconCacheLoaded (cache : IconCache)
  | Entries (entries : List OwnedEntry)
  | Action (action : keal.Action)
  deriving DecidableEq

/-- Observable side effects of the UI code: calls into the async manager
(`send`, `kill`, `wait`) and process-level effects (`exec`, `println!`,
`fork`). -/
inductive Effect where
  | send (e : Event)
  | kill
  | wait
  | execCall (c : Cmd)
  | printStdout (s : String)
  | forkCall
  deriving DecidableEq

/-- External measuring/layout environment: macroquad's `measure_text` width
(abstracted over the measured slice), `screen_width()` and the configured
font size (`config().font_size`). -/
structure MeasureEnv where
  measure : List Char → Rat
  screenWidth : Rat
  fontSize : Rat

/-- The OS-facing outcomes `handle_action` can observe: whether
`Command::exec` fails (it returns only on error), and what `fork()`
returns (`Ok(Parent|Child)` or an error). -/
structure OsEnv where
  execFails : Bool
  forkOutcome : Except Unit Bool

/-- `Entries` (`src/ui/mod.rs:66-72`): the entry list plus per-entry wrap
info (name wrap, optional comment wrap) and the total height. -/
structure Entries where
  list : List OwnedEntry
  wrap_info : List (WrapInfo × Option WrapInfo)
  total_height : Rat

/-- Body of the `map` inside `Entries::recalculate` (`src/ui/mod.rs:92-104`):
wrap the name against half the screen, then the comment (when present)
against the remaining width minus the paddings. -/
def entryWrap (env : MeasureEnv) (entry : OwnedEntry) : WrapInfo × Option WrapInfo :=
  let name := measure_text_wrap env.measure (env.screenWidth / 2) env.fontSize 5 entry.name
  let comment := entry.comment.map fun comment =>
    measure_text_wrap env.measure (env.screenWidth - name.width - 10 - 20 - 10)
      env.fontSize 5 comment
  (name, comment)

/-- `max_height` of one entry inside `Entries::recalculate`: the name's
height, raised to the comment's height when a comment exists. -/
def entryMaxHeight (p : WrapInfo × Option WrapInfo) : Rat :=
  match p.2 with
  | some c => max p.1.height c.height
  | none => p.1.height

/-- `Entries::recalculate` (`src/ui/mod.rs:87-105`): clears and rebuilds
`wrap_info` from `list`, accumulating `total_height`. -/
def Entries.recalculate (env : MeasureEnv) (e : Entries) : Entries :=
  let wi := e.list.map (entryWrap env)
  { e with wrap_info := wi,
           total_height := (wi.map (fun p => entryMaxHeight p + 20)).sum }

/-- `Entries::new` (`src/ui/mod.rs:75-84`): store the list and recalculate. -/
def Entries.new (env : MeasureEnv) (list : List OwnedEntry) : Entries :=
  Entries.recalculate env ⟨list, [], 0⟩

/-- The `Keal` UI state (`src/ui/mod.rs:108-125`). The async manager is
modelled by its observable `current()` view; the channel is modelled
separately (the Rust struct owns its receiving end). -/
structure Keal where
  input : String
  selected : Nat
  scroll : Rat
  old_screen_width : Rat
  icons : IconCache
  entries : Entries
  manager : ManagerView

/-- Initial state built by `Keal::new` (`src/ui/mod.rs:140-175`): empty
input, selection 0, default (empty) entries; no plugin is active. -/
def Keal.new : Keal :=
  ⟨"", 0, 0, 0, ⟨0⟩, ⟨[], [], 0⟩, ⟨Option.none⟩⟩

/-- The worker→UI mpsc channel: queued messages in FIFO order plus whether
any sender is still connected. -/
structure Channel where
  queue : List Message
  connected : Bool

/-- Result of `Receiver::try_recv`: per std mpsc semantics, buffered
messages are delivered first; `Disconnected` is reported only when the
buffer is empty and all senders are gone. -/
inductive RecvResult where
  | ok (m : Message) (rest : List Message)
  | empty
  | disconnected
  deriving DecidableEq

/-- `try_recv` on the modelled channel. -/
def tryRecv (ch : Channel) : RecvResult :=
  match ch.queue with
  | m :: rest => .ok m rest
  | [] => if ch.connected then .empty else .disconnected

/-- Result of one `Keal::handle_action` call (`src/ui/mod.rs:328-361`):
either control returns to the render loop with an updated state and the
effects performed, or the process image was replaced (`exec` succeeded and
never returns), or the code panicked (`fork().expect`). -/
inductive HandleResult where
  | ok (st : Keal) (effects : List Effect)
  | imageReplaced (command : Cmd) (effects : List Effect)
  | panicked (msg : String) (effects : List Effect)

/-- `Keal::update_input` (`src/ui/mod.rs:323-326`): store the input and
forward it to the manager as an `UpdateInput` event with the given
`from_user` flag. -/
def Keal.update_input (st : Keal) (input : String) (from_user : Bool) :
    Keal × List Effect :=
  ({ st with input := input }, [Effect.send (Event.UpdateInput input from_user)])

/-- `Keal::handle_action` (`src/ui/mod.rs:328-361`). `ChangeInput` kills the
in-flight search then replaces the input (not user originated);
`ChangeQuery` composes `"<prefix> <text>"` when `manager.current()` reports
an active plugin, else uses the text verbatim; `Exec` calls
`Command::exec` and ignores its error return; `PrintAndClose` prints the
line; `Fork` panics when `fork()` fails; `WaitAndClose` waits on the
manager. -/
def Keal.handle_action (os : OsEnv) (st : Keal) (a : keal.Action) : HandleResult :=
  match a with
  | .None => .ok st []
  | .ChangeInput new =>
    let p := st.update_input new false
    .ok p.1 (Effect.kill :: p.2)
  | .ChangeQuery new =>
    let composed := (st.manager.current.map (fun plugin => plugin.pfx ++ " " ++ new)).getD new
    let p := st.update_input composed false
    .ok p.1 p.2
  | .Exec command =>
    if os.execFails then .ok st [Effect.execCall command]
    else .imageReplaced command [Effect.execCall command]
  | .PrintAndClose message => .ok st [Effect.printStdout message]
  | .Fork =>
    match os.forkOutcome with
    | .error _ => .panicked "failed to fork" [Effect.forkCall]
    | .ok _ => .ok st [Effect.forkCall]
  | .WaitAndClose => .ok st [Effect.wait]

/-- Keyboard snapshot for one frame (`is_key_down`/`is_key_pressed` in
`Keal::update`, `src/ui/mod.rs:294-302`). -/
structure Keys where
  ctrl : Bool
  down : Bool
  up : Bool
  j : Bool
  k : Bool
  n : Bool
  p : Bool
  deriving DecidableEq

/-- The move-down key combination (`Down`, `Ctrl+J`, or `Ctrl+N`). -/
def downCombo (ks : Keys) : Bool :=
  ks.down || (ks.ctrl && ks.j) || (ks.ctrl && ks.n)

/-- The move-up key combination (`Up`, `Ctrl+K`, or `Ctrl+P`). -/
def upCombo (ks : Keys) : Bool :=
  ks.up || (ks.ctrl && ks.k) || (ks.ctrl && ks.p)

/-- The part of `Keal::update` before the channel poll
(`src/ui/mod.rs:288-302`): recalculate wrap info when the screen width
changed, then apply the selection moves. Down increments and clamps to
`len.saturating_sub(1)`; up saturating-decrements. -/
def Keal.frameStart (env : MeasureEnv) (ks : Keys) (st : Keal) : Keal :=
  let st :=
    if st.old_screen_width ≠ env.screenWidth then
      { st with entries := st.entries.recalculate env,
                old_screen_width := env.screenWidth }
    else st
  let st :=
    if downCombo ks then
      { st with selected := min (st.selected + 1) (st.entries.list.length - 1) }
    else st
  if upCombo ks then { st with selected := st.selected - 1 } else st

/-- Result of one `Keal::update` frame: normal return with the new state,
remaining channel and effects, a panic, or a replaced process image. Each
variant records the messages consumed from the channel this frame. -/
inductive UpdateResult where
  | ret (st : Keal) (ch : Channel) (effects : List Effect) (processed : List Message)
  | panic (msg : String) (processed : List Message)
  | imageReplaced (command : Cmd) (processed : List Message)

/-- The messages a frame consumed from the worker→UI channel. -/
def UpdateResult.processedMsgs : UpdateResult → List Message
  | .ret _ _ _ p => p
  | .panic _ p => p
  | .imageReplaced _ p => p

/-- `Keal::update` (`src/ui/mod.rs:287-319`): screen/selection handling,
then one non-blocking `try_recv`; `Empty` returns immediately,
`Disconnected` panics, one received message is dispatched. -/
def Keal.update (env : MeasureEnv) (os : OsEnv) (ks : Keys) (st : Keal)
    (ch : Channel) : UpdateResult :=
  let st := Keal.frameStart env ks st
  match tryRecv ch with
  | .empty => .ret st ch [] []
  | .disconnected => .panic "manager channel disconnected" []
  | .ok m rest =>
    let ch' : Channel := { queue := rest, connected := ch.connected }
    match m with
    | .TextInput input =>
      let p := st.update_input input true
      .ret p.1 ch' p.2 [m]
    | .Launch sel => .ret st ch' [Effect.send (Event.Launch sel)] [m]
    | .IconCacheLoaded cache => .ret { st with icons := cache } ch' [] [m]
    | .Entries l => .ret { st with entries := Entries.new env l } ch' [] [m]
    | .Action a =>
      match st.handle_action os a with
      | .ok st' effs => .ret st' ch' effs [m]
      | .imageReplaced c _ => .imageReplaced c [m]
      | .panicked msg _ => .panic msg [m]

/-- The three UI operations of spec invariant 3: moving the selection down,
moving it up, and an `Entries` message replacing the entry list. -/
inductive UiOp where
  | moveDown
  | moveUp
  | putEntries (l : List OwnedEntry)

/-- Key snapshot driving one `UiOp` through `Keal::update`. -/
def opKeys : UiOp → Keys
  | .moveDown => ⟨false, true, false, false, false, false, false⟩
  | .moveUp => ⟨false, false, true, false, false, false, false⟩
  | .putEntries _ => ⟨false, false, false, false, false, false, false⟩

/-- Channel contents driving one `UiOp` through `Keal::update`. -/
def opMsgs : UiOp → List Message
  | .putEntries l => [Message.Entries l]
  | _ => []

/-- Run one `UiOp` as a full `Keal::update` frame (connected channel). -/
def stepOp (env : MeasureEnv) (os : OsEnv) (st : Keal) (op : UiOp) : Keal :=
  match Keal.update env os (opKeys op) st ⟨opMsgs op, true⟩ with
  | .ret st' _ _ _ => st'
  | _ => st

/-- Run a sequence of `UiOp`s frame by frame. -/
def runOps (env : MeasureEnv) (os : OsEnv) (st : Keal) (ops : List UiOp) : Keal :=
  ops.foldl (stepOp env os) st

/-! ## Concrete fixtures used by witnesses and counterexamples -/

/-- A measuring environment where every slice measures zero width. -/
def env0 : MeasureEnv := ⟨fun _ => 0, 0, 1⟩

/-- An OS in which `exec` succeeds and `fork` returns Parent. -/
def os0 : OsEnv := ⟨false, .ok true⟩

/-- An OS in which `exec` fails (returns an error) and `fork` fails. -/
def osFail : OsEnv := ⟨true, .error ()⟩

/-- A concrete command. -/
def cmd0 : Cmd := ⟨"ls", []⟩

/-- A one-character entry without a comment. -/
def e0 : OwnedEntry := ⟨['a'], Option.none, Option.none, ⟨0, 0⟩⟩

/-- A one-character entry with a comment. -/
def e1 : OwnedEntry := ⟨['a'], some ['c'], Option.none, ⟨0, 1⟩⟩

/-- No key pressed. -/
def keys0 : Keys := ⟨false, false, false, false, false, false, false⟩

/-- A state in which the plugin with prefix `"run"` is active. -/
def stRun : Keal := { Keal.new with manager := ⟨some ⟨"run"⟩⟩ }

/-- A state holding two entries with selection 0. -/
def stTwo : Keal := { Keal.new with entries := ⟨[e0, e0], [], 0⟩ }

/-! ## C1, C3, C8: `handle_action` on the query-mutating and no-op actions -/

/-- C1: handling `ActionReady(ChangeQuery(text))` composes the next input as
`"<prefix> <text>"` when a plugin is currently active and uses `text`
verbatim otherwise; in both cases the resulting `UpdateInput` event is
marked `from_user = false`. -/
theorem changeQuery_composition_from_active_plugin (os : OsEnv) (st : Keal) (text : String) :
    (∀ p : Plugin, st.manager.current = some p →
      st.handle_action os (.ChangeQuery text) =
        .ok { st with input := p.pfx ++ " " ++ text }
          [Effect.send (Event.UpdateInput (p.pfx ++ " " ++ text) false)])
    ∧ (st.manager.current = Option.none →
      st.handle_action os (.ChangeQuery text) =
        .ok { st with input := text }
          [Effect.send (Event.UpdateInput text false)]) := by
  constructor
  · intro p hp
    simp [Keal.handle_action, Keal.update_input, hp]
  · intro hp
    simp [Keal.handle_action, Keal.update_input, hp]

/-- Witness for C1: `ChangeQuery("bar")` while the plugin with prefix
`"run"` is active produces next input `"run bar"`, not user originated. -/
theorem changeQuery_composition_from_active_plugin_witness :
    Keal.handle_action os0 stRun (.ChangeQuery "bar") =
      .ok { stRun with input := "run bar" }
        [Effect.send (Event.UpdateInput "run bar" false)] := by
  have h := (changeQuery_composition_from_active_plugin os0 stRun "bar").1 ⟨"run"⟩ rfl
  have e : (Plugin.mk "run").pfx ++ " " ++ "bar" = "run bar" := by decide
  rw [e] at h
  exact h

/-- C3: handling `ActionReady(ChangeInput(text))` first kills the in-flight
search on the manager and then replaces the input with `text` verbatim,
forwarding it as an `UpdateInput` event with `from_user = false`. -/
theorem changeInput_kills_then_replaces (os : OsEnv) (st : Keal) (text : String) :
    st.handle_action os (.ChangeInput text) =
      .ok { st with input := text }
        [Effect.kill, Effect.send (Event.UpdateInput text false)] := rfl

/-- C8: handling `ActionReady(None)` is a no-op: the state (input, selected
index, scroll, entry list, icon cache) is returned unchanged, no effect is
performed, and control returns to the render loop. -/
theorem action_none_noop (os : OsEnv) (st : Keal) :
    st.handle_action os .None = .ok st [] := rfl

/-! ## C4: spawn failures of `Exec`/`Fork` -/

/-- Counterexample to C4: with a failing spawn, `Exec` discards the error —
the handler returns normally with the state unchanged and no
`PrintAndClose`-style output among its effects — and a failing `Fork`
panics the process instead of surfacing the error. -/
theorem spawn_failure_not_surfaced_cex :
    (Keal.handle_action osFail Keal.new (.Exec cmd0) =
      .ok Keal.new [Effect.execCall cmd0])
    ∧ (∀ s, Effect.printStdout s ∉ [Effect.execCall cmd0])
    ∧ (Keal.handle_action osFail Keal.new .Fork =
      .panicked "failed to fork" [Effect.forkCall]) := by
  refine ⟨rfl, ?_, rfl⟩
  intro s h
  simp at h

/-- C4 amended: an `Exec` spawn failure is silently discarded (`let _ =
command.0.exec()` ignores the error and the UI continues unchanged, with no
print effect), and a `Fork` failure panics with "failed to fork"; neither
is routed through the print-and-close path. -/
theorem spawn_failure_discarded_or_panics (os : OsEnv) (st : Keal) (c : Cmd) :
    (os.execFails = true →
      st.handle_action os (.Exec c) = .ok st [Effect.execCall c]
      ∧ ∀ s, Effect.printStdout s ∉ [Effect.execCall c])
    ∧ (os.forkOutcome = .error () →
      st.handle_action os .Fork = .panicked "failed to fork" [Effect.forkCall]) := by
  constructor
  · intro h
    refine ⟨by simp [Keal.handle_action, h], ?_⟩
    intro s hs
    simp at hs
  · intro h
    simp [Keal.handle_action, h]

/-- Witness for the amended C4 at a concrete failing OS. -/
theorem spawn_failure_discarded_or_panics_witness :
    (Keal.handle_action osFail Keal.new (.Exec cmd0) =
       .ok Keal.new [Effect.execCall cmd0]
     ∧ ∀ s, Effect.printStdout s ∉ [Effect.execCall cmd0])
    ∧ Keal.handle_action osFail Keal.new .Fork =
       .panicked "failed to fork" [Effect.forkCall] :=
  ⟨(spawn_failure_discarded_or_panics osFail Keal.new cmd0).1 rfl,
   (spawn_failure_discarded_or_panics osFail Keal.new cmd0).2 rfl⟩

/-! ## C5: `PrintAndClose` prints but the close is commented out -/

/-- C5 (code bug evidence): handling `ActionReady(PrintAndClose("hello"))`
prints the line to standard output but then returns control to the render
loop — the state is unchanged and no terminating effect occurs, because
the `iced::window::close()` call is commented out in
`src/ui/mod.rs:348-351`. -/
theorem printAndClose_prints_without_closing :
    Keal.handle_action os0 Keal.new (.PrintAndClose "hello") =
      .ok Keal.new [Effect.printStdout "hello"] := rfl

/-! ## C6, C7: the per-frame channel poll -/

/-- C6: when `try_recv` reports the worker→UI channel disconnected, the
per-frame update panics ("manager channel disconnected") — the process
terminates; no retry or recovery path exists in `Keal::update`. -/
theorem disconnected_channel_panics (env : MeasureEnv) (os : OsEnv) (ks : Keys)
    (st : Keal) (ch : Channel) (h : tryRecv ch = .disconnected) :
    Keal.update env os ks st ch = .panic "manager channel disconnected" [] := by
  simp [Keal.update, h]

/-- Witness for C6: a drained, disconnected channel panics the next frame. -/
theorem disconnected_channel_panics_witness :
    Keal.update env0 os0 keys0 Keal.new ⟨[], false⟩ =
      .panic "manager channel disconnected" [] :=
  disconnected_channel_panics env0 os0 keys0 Keal.new ⟨[], false⟩ rfl

/-- C7: each `Keal::update` frame polls the channel non-blockingly: the
messages it consumes form a FIFO prefix of the current queue of length at
most one, an empty queue makes the frame return immediately with the
channel untouched and nothing applied, and on a normal return the
remaining queue is exactly the unconsumed suffix. -/
theorem update_polls_nonblocking_fifo (env : MeasureEnv) (os : OsEnv) (ks : Keys)
    (st : Keal) (ch : Channel) (hconn : ch.connected = true) :
    ((Keal.update env os ks st ch).processedMsgs =
       ch.queue.take (Keal.update env os ks st ch).processedMsgs.length)
    ∧ (Keal.update env os ks st ch).processedMsgs.length ≤ 1
    ∧ (ch.queue = [] →
       Keal.update env os ks st ch = .ret (Keal.frameStart env ks st) ch [] [])
    ∧ (∀ st' ch' effs proc, Keal.update env os ks st ch = .ret st' ch' effs proc →
       ch'.queue = ch.queue.drop proc.length ∧ ch'.connected = true) := by
  cases hq : ch.queue with
  | nil =>
    have ht : tryRecv ch = .empty := by simp [tryRecv, hq, hconn]
    refine ⟨?_, ?_, ?_, ?_⟩
    · simp [Keal.update, ht, UpdateResult.processedMsgs]
    · simp [Keal.update, ht, UpdateResult.processedMsgs]
    · intro _
      simp [Keal.update, ht]
    · intro st' ch' effs proc h
      simp only [Keal.update, ht] at h
      cases h
      simp [hq, hconn]
  | cons m rest =>
    have ht : tryRecv ch = .ok m rest := by simp [tryRecv, hq]
    cases m with
    | TextInput input =>
      refine ⟨?_, ?_, ?_, ?_⟩
      · simp [Keal.update, ht, UpdateResult.processedMsgs, Keal.update_input, hq]
      · simp [Keal.update, ht, UpdateResult.processedMsgs, Keal.update_input]
      · intro h; simp at h
      · intro st' ch' effs proc h
        simp only [Keal.update, ht, Keal.update_input] at h
        cases h
        simp [hq, hconn]
    | Launch sel =>
      refine ⟨?_, ?_, ?_, ?_⟩
      · simp [Keal.update, ht, UpdateResult.processedMsgs, hq]
      · simp [Keal.update, ht, UpdateResult.processedMsgs]
      · intro h; simp at h
      · intro st' ch' effs proc h
        simp only [Keal.update, ht] at h
        cases h
        simp [hq, hconn]
    | IconCacheLoaded cache =>
      refine ⟨?_, ?_, ?_, ?_⟩
      · simp [Keal.update, ht, UpdateResult.processedMsgs, hq]
      · simp [Keal.update, ht, UpdateResult.processedMsgs]
      · intro h; simp at h
      · intro st' ch' effs proc h
        simp only [Keal.update, ht] at h
        cases h
        simp [hq, hconn]
    | Entries l =>
      refine ⟨?_, ?_, ?_, ?_⟩
      · simp [Keal.update, ht, UpdateResult.processedMsgs, hq]
      · simp [Keal.update, ht, UpdateResult.processedMsgs]
      · intro h; simp at h
      · intro st' ch' effs proc h
        simp only [Keal.update, ht] at h
        cases h
        simp [hq, hconn]
    | Action a =>
      cases hh : (Keal.frameStart env ks st).handle_action os a with
      | ok st2 effs2 =>
        refine ⟨?_, ?_, ?_, ?_⟩
        · simp [Keal.update, ht, hh, UpdateResult.processedMsgs, hq]
        · simp [Keal.update, ht, hh, UpdateResult.processedMsgs]
        · intro h; simp at h
        · intro st' ch' effs proc h
          simp only [Keal.update, ht, hh] at h
          cases h
          simp [hq, hconn]
      | imageReplaced c effs2 =>
        refine ⟨?_, ?_, ?_, ?_⟩
        · simp [Keal.update, ht, hh, UpdateResult.processedMsgs, hq]
        · simp [Keal.update, ht, hh, UpdateResult.processedMsgs]
        · intro h; simp at h
        · intro st' ch' effs proc h
          simp only [Keal.update, ht, hh] at h
          cases h
      | panicked msg effs2 =>
        refine ⟨?_, ?_, ?_, ?_⟩
        · simp [Keal.update, ht, hh, UpdateResult.processedMsgs, hq]
        · simp [Keal.update, ht, hh, UpdateResult.processedMsgs]
        · intro h; simp at h
        · intro st' ch' effs proc h
          simp only [Keal.update, ht, hh] at h
          cases h

/-- Witness for C7 at a concrete empty connected channel. -/
theorem update_polls_nonblocking_fifo_witness :
    ((Keal.update env0 os0 keys0 Keal.new ⟨[], true⟩).processedMsgs =
       (Channel.mk [] true).queue.take
         (Keal.update env0 os0 keys0 Keal.new ⟨[], true⟩).processedMsgs.length)
    ∧ (Keal.update env0 os0 keys0 Keal.new ⟨[], true⟩).processedMsgs.length ≤ 1
    ∧ ((Channel.mk [] true).queue = [] →
       Keal.update env0 os0 keys0 Keal.new ⟨[], true⟩ =
         .ret (Keal.frameStart env0 keys0 Keal.new) ⟨[], true⟩ [] [])
    ∧ (∀ st' ch' effs proc,
       Keal.update env0 os0 keys0 Keal.new ⟨[], true⟩ = .ret st' ch' effs proc →
       ch'.queue = (Channel.mk [] true).queue.drop proc.length ∧ ch'.connected = true) :=
  update_polls_nonblocking_fifo env0 os0 keys0 Keal.new ⟨[], true⟩ rfl

/-! ## C2: the selection-index invariant -/

/-- `Entries::recalculate` never touches the entry list itself. -/
theorem Entries.recalculate_list (env : MeasureEnv) (e : Entries) :
    (e.recalculate env).list = e.list := rfl

/-- `Entries::new` stores exactly the given list. -/
theorem Entries.new_list (env : MeasureEnv) (l : List OwnedEntry) :
    (Entries.new env l).list = l := rfl

/-- The pre-poll frame step never changes the entry list (the width
recalculation only rebuilds wrap info). -/
theorem frameStart_entries_list (env : MeasureEnv) (ks : Keys) (st : Keal) :
    (Keal.frameStart env ks st).entries.list = st.entries.list := by
  simp only [Keal.frameStart]
  split <;> split <;> split <;> rfl

/-- With only the Down key pressed, the frame step clamps the incremented
selection to `len.saturating_sub(1)`. -/
theorem frameStart_moveDown_selected (env : MeasureEnv) (st : Keal) :
    (Keal.frameStart env (opKeys .moveDown) st).selected =
      min (st.selected + 1) (st.entries.list.length - 1) := by
  simp [Keal.frameStart, opKeys, downCombo, upCombo]
  split <;> simp [Entries.recalculate]

/-- With only the Up key pressed, the frame step saturating-decrements the
selection. -/
theorem frameStart_moveUp_selected (env : MeasureEnv) (st : Keal) :
    (Keal.frameStart env (opKeys .moveUp) st).selected = st.selected - 1 := by
  simp [Keal.frameStart, opKeys, downCombo, upCombo]
  split <;> rfl

/-- With no key pressed, the frame step keeps the selection. -/
theorem frameStart_noKeys_selected (env : MeasureEnv) (st : Keal) (l : List OwnedEntry) :
    (Keal.frameStart env (opKeys (.putEntries l)) st).selected = st.selected := by
  simp [Keal.frameStart, opKeys, downCombo, upCombo]
  split <;> rfl

/-- Counterexample to C2: starting from the initial state, deliver two
entries, move the selection down (to index 1), then deliver a one-entry
list: the `Entries` handler replaces the list without re-clamping, leaving
`selected = 1` while the list has length 1, so `selected < len` fails on a
non-empty list. -/
theorem selection_escapes_bounds_cex :
    (runOps env0 os0 Keal.new
        [UiOp.putEntries [e0, e0], UiOp.moveDown, UiOp.putEntries [e0]]).entries.list.length = 1
    ∧ ¬ (runOps env0 os0 Keal.new
        [UiOp.putEntries [e0, e0], UiOp.moveDown, UiOp.putEntries [e0]]).selected <
      (runOps env0 os0 Keal.new
        [UiOp.putEntries [e0, e0], UiOp.moveDown, UiOp.putEntries [e0]]).entries.list.length := by
  decide

/-- C2 amended: moving the selection down during an update frame clamps it
into `[0, len-1]` whenever the list is non-empty, moving it up only
decreases it, but an `Entries` message replaces the entry list while
leaving the selection index unchanged — so after a replacement with a
shorter list the index may equal or exceed the new length until the next
selection move. -/
theorem selection_clamped_by_moves_not_by_replace
    (env : MeasureEnv) (os : OsEnv) (st : Keal) (ch : Channel) :
    (∀ st' ch' effs proc, ch.queue = [] →
      Keal.update env os (opKeys .moveDown) st ch = .ret st' ch' effs proc →
      st'.entries.list ≠ [] → st'.selected < st'.entries.list.length)
    ∧ (∀ st' ch' effs proc, ch.queue = [] →
      Keal.update env os (opKeys .moveUp) st ch = .ret st' ch' effs proc →
      st'.selected ≤ st.selected)
    ∧ (∀ l st' ch' effs proc, ch.queue = [Message.Entries l] →
      Keal.update env os (opKeys (.putEntries l)) st ch = .ret st' ch' effs proc →
      st'.selected = st.selected ∧ st'.entries.list = l) := by
  refine ⟨?_, ?_, ?_⟩
  · intro st' ch' effs proc hq hret hne
    have ht : tryRecv ch = (if ch.connected then .empty else .disconnected) := by
      simp [tryRecv, hq]
    by_cases hc : ch.connected
    · simp only [Keal.update, ht, hc, if_true] at hret
      cases hret
      have h1 := frameStart_moveDown_selected env st
      have h2 := frameStart_entries_list env (opKeys .moveDown) st
      rw [h1, h2]
      rw [h2] at hne
      have h3 : 0 < st.entries.list.length := List.length_pos.mpr hne
      have h4 := min_le_right (st.selected + 1) (st.entries.list.length - 1)
      omega
    · simp only [Keal.update, ht, hc, if_false] at hret
      cases hret
  · intro st' ch' effs proc hq hret
    have ht : tryRecv ch = (if ch.connected then .empty else .disconnected) := by
      simp [tryRecv, hq]
    by_cases hc : ch.connected
    · simp only [Keal.update, ht, hc, if_true] at hret
      cases hret
      rw [frameStart_moveUp_selected env st]
      omega
    · simp only [Keal.update, ht, hc, if_false] at hret
      cases hret
  · intro l st' ch' effs proc hq hret
    have ht : tryRecv ch = .ok (Message.Entries l) [] := by
      simp [tryRecv, hq]
    simp only [Keal.update, ht] at hret
    cases hret
    exact ⟨frameStart_noKeys_selected env st l, rfl⟩

/-- Witness for the amended C2: from a two-entry state a down move yields a
clamped in-range selection, an up move does not increase it, and an
`Entries` message preserves the selection while replacing the list. -/
theorem selection_clamped_by_moves_not_by_replace_witness :
    ((Keal.frameStart env0 (opKeys .moveDown) stTwo).selected <
       (Keal.frameStart env0 (opKeys .moveDown) stTwo).entries.list.length)
    ∧ (Keal.frameStart env0 (opKeys .moveUp) stTwo).selected ≤ stTwo.selected
    ∧ ((Keal.frameStart env0 (opKeys (.putEntries [e0])) stTwo).selected = stTwo.selected
       ∧ (Entries.new env0 [e0]).list = [e0]) := by
  refine ⟨?_, ?_, ?_⟩
  · exact (selection_clamped_by_moves_not_by_replace env0 os0 stTwo ⟨[], true⟩).1
      (Keal.frameStart env0 (opKeys .moveDown) stTwo) ⟨[], true⟩ [] [] rfl rfl (by decide)
  · exact (selection_clamped_by_moves_not_by_replace env0 os0 stTwo ⟨[], true⟩).2.1
      (Keal.frameStart env0 (opKeys .moveUp) stTwo) ⟨[], true⟩ [] [] rfl rfl
  · exact (selection_clamped_by_moves_not_by_replace env0 os0 stTwo
        ⟨[Message.Entries [e0]], true⟩).2.2 [e0]
      { Keal.frameStart env0 (opKeys (.putEntries [e0])) stTwo with
          entries := Entries.new env0 [e0] }
      ⟨[], true⟩ [] [Message.Entries [e0]] rfl rfl

/-! ## C9: wrap info stays aligned with the entry list -/

/-- The comment slot of a rebuilt wrap-info item is `Some` exactly when the
corresponding entry's comment is `Some` (out-of-range indices both give the
`none`-carrying defaults). -/
theorem getD_entryWrap_isSome (env : MeasureEnv) :
    ∀ (l : List OwnedEntry) (i : Nat),
      ((l.map (entryWrap env)).getD i default).2.isSome
        = ((l.getD i default).comment).isSome := by
  intro l
  induction l with
  | nil => intro i; rfl
  | cons c t ih =>
    intro i
    cases i with
    | zero =>
      simp [List.getD_cons_zero, entryWrap]
    | succ n =>
      simp only [List.map_cons, List.getD_cons_succ]
      exact ih n

/-- C9: after `Entries::recalculate` (and hence after `Entries::new`),
`wrap_info` has exactly the length of `list`, the list itself is unchanged
(resp. stored verbatim), and the i-th comment wrap info is `Some` exactly
when the i-th entry's comment is `Some` — so the `unwrap` of the comment
wrap info during render never sees `None`. -/
theorem wrap_info_aligned_with_list (env : MeasureEnv) (e : Entries)
    (l : List OwnedEntry) :
    ((e.recalculate env).wrap_info.length = (e.recalculate env).list.length
     ∧ (e.recalculate env).list = e.list
     ∧ ∀ i, (((e.recalculate env).wrap_info.getD i default).2).isSome
          = (((e.recalculate env).list.getD i default).comment).isSome)
    ∧ ((Entries.new env l).wrap_info.length = (Entries.new env l).list.length
     ∧ (Entries.new env l).list = l
     ∧ ∀ i, (((Entries.new env l).wrap_info.getD i default).2).isSome
          = ((l.getD i default).comment).isSome) := by
  refine ⟨⟨?_, rfl, ?_⟩, ⟨?_, rfl, ?_⟩⟩
  · simp [Entries.recalculate]
  · intro i
    exact getD_entryWrap_isSome env e.list i
  · simp [Entries.new, Entries.recalculate]
  · intro i
    exact getD_entryWrap_isSome env l i

/-! ## C10: the wrap offsets of `measure_text_wrap` -/

/-- Offset `0` is a boundary of every text. -/
theorem boundary_zero (t : List Char) : boundary t 0 = true := by
  cases t <;> rfl

/-- Boundaries shift across a leading character. -/
theorem boundary_cons_add (c : Char) (t : List Char) (n : Nat)
    (h : boundary t n = true) : boundary (c :: t) (c.utf8Size + n) = true := by
  have hpos := Char.utf8Size_pos c
  obtain ⟨k, hk⟩ : ∃ k, c.utf8Size + n = k + 1 := ⟨c.utf8Size + n - 1, by omega⟩
  rw [hk]
  simp only [boundary]
  rw [if_pos (by omega : c.utf8Size ≤ k + 1)]
  have hkn : k + 1 - c.utf8Size = n := by omega
  rw [hkn]
  exact h

/-- The total byte length is a boundary. -/
theorem boundary_utf8Len (t : List Char) : boundary t (utf8Len t) = true := by
  induction t with
  | nil => rfl
  | cons c t ih => exact boundary_cons_add c t (utf8Len t) ih

/-- Every offset produced by `char_indices` is a boundary strictly below the
total length (relative to the suffix start `o`). -/
theorem mem_charIndicesAux (t : List Char) :
    ∀ (o i : Nat) (c : Char), (i, c) ∈ charIndicesAux o t →
      ∃ j, i = o + j ∧ boundary t j = true ∧ j < utf8Len t := by
  induction t with
  | nil =>
    intro o i c h
    simp [charIndicesAux] at h
  | cons c0 t ih =>
    intro o i c h
    simp only [charIndicesAux, List.mem_cons] at h
    rcases h with h | h
    · have hi : i = o := by
        have := congrArg Prod.fst h
        simpa using this
      refine ⟨0, by omega, boundary_zero _, ?_⟩
      have := Char.utf8Size_pos c0
      simp only [utf8Len]
      omega
    · obtain ⟨j, hj, hb, hlt⟩ := ih (o + c0.utf8Size) i c h
      refine ⟨c0.utf8Size + j, by omega, boundary_cons_add c0 t j hb, ?_⟩
      simp only [utf8Len]
      omega

/-- The offsets produced by `char_indices` increase strictly from any value
below the suffix start. -/
theorem chain_charIndicesAux (t : List Char) :
    ∀ (o a : Nat), a < o →
      List.Chain (· < ·) a ((charIndicesAux o t).map Prod.fst) := by
  induction t with
  | nil => intro o a _; exact List.Chain.nil
  | cons c t ih =>
    intro o a h
    simp only [charIndicesAux, List.map_cons]
    refine List.Chain.cons h (ih (o + c.utf8Size) o ?_)
    have := Char.utf8Size_pos c
    omega

/-- Invariant of the `measure_text_wrap` loop: the splits collected so far
are strictly sorted boundaries below `last`; `last` and `lineStart` are
boundaries strictly below the total length. -/
structure WrapInv (text : List Char) (st : WrapState) : Prop where
  sorted : st.splits.Sorted (· < ·)
  lt_last : ∀ s ∈ st.splits, s < st.last
  bnd : ∀ s ∈ st.splits, boundary text s = true
  last_bnd : boundary text st.last = true
  last_lt : st.last < utf8Len text
  ls_lt : st.lineStart < utf8Len text

/-- One loop iteration preserves the invariant when fed the next character
(whose offset is a boundary strictly between `last` and the length). -/
theorem wrapStep_inv (m : List Char → Rat) (maxw fs lh : Rat) (text : List Char)
    (st : WrapState) (i : Nat) (c : Char) (hInv : WrapInv text st)
    (hb : boundary text i = true) (hlt : i < utf8Len text) (hgt : st.last < i) :
    WrapInv text (wrapStep m maxw fs lh text st (i, c)) := by
  unfold wrapStep
  dsimp only
  split
  · refine ⟨?_, ?_, ?_, hb, hlt, hlt⟩
    · refine List.pairwise_append.mpr ⟨hInv.sorted, List.pairwise_singleton _ _, ?_⟩
      intro a ha b hbmem
      have hbl : b = st.last := by simpa using hbmem
      rw [hbl]
      exact hInv.lt_last a ha
    · intro s hs
      rcases List.mem_append.mp hs with hs | hs
      · exact lt_trans (hInv.lt_last s hs) hgt
      · have : s = st.last := by simpa using hs
        rw [this]; exact hgt
    · intro s hs
      rcases List.mem_append.mp hs with hs | hs
      · exact hInv.bnd s hs
      · have : s = st.last := by simpa using hs
        rw [this]; exact hInv.last_bnd
  · exact ⟨hInv.sorted, fun s hs => lt_trans (hInv.lt_last s hs) hgt,
      hInv.bnd, hb, hlt, hInv.ls_lt⟩

/-- After an iteration the loop's `last` is the offset just consumed. -/
theorem wrapStep_last (m : List Char → Rat) (maxw fs lh : Rat) (text : List Char)
    (st : WrapState) (p : Nat × Char) :
    (wrapStep m maxw fs lh text st p).last = p.1 := by
  unfold wrapStep
  dsimp only
  split <;> rfl

/-- The whole loop preserves the invariant when fed strictly increasing
boundary offsets. -/
theorem foldl_wrapStep_inv (m : List Char → Rat) (maxw fs lh : Rat)
    (text : List Char) :
    ∀ (l : List (Nat × Char)) (st : WrapState), WrapInv text st →
      (∀ p ∈ l, boundary text p.1 = true ∧ p.1 < utf8Len text) →
      List.Chain (· < ·) st.last (l.map Prod.fst) →
      WrapInv text (l.foldl (wrapStep m maxw fs lh text) st) := by
  intro l
  induction l with
  | nil => intro st h _ _; exact h
  | cons p l ih =>
    intro st hInv hall hchain
    obtain ⟨i, c⟩ := p
    simp only [List.map_cons] at hchain
    cases hchain with
    | cons hlt' hchain' =>
      have h1 := hall (i, c) (List.mem_cons_self _ _)
      have hstep := wrapStep_inv m maxw fs lh text st i c hInv h1.1 h1.2 hlt'
      refine ih _ hstep (fun q hq => hall q (List.mem_cons_of_mem _ hq)) ?_
      rw [wrapStep_last m maxw fs lh text st (i, c)]
      exact hchain'

/-- No character lies before offset `0`. -/
theorem charsBefore_zero (t : List Char) : charsBefore t 0 = 0 := by
  cases t with
  | nil => rfl
  | cons c t =>
    unfold charsBefore
    rw [if_neg]
    have := Char.utf8Size_pos c
    omega

/-- `charsBefore` is monotone in the offset. -/
theorem charsBefore_mono (t : List Char) :
    ∀ {a b : Nat}, a ≤ b → charsBefore t a ≤ charsBefore t b := by
  induction t with
  | nil => intro a b _; exact Nat.le_refl 0
  | cons c t ih =>
    intro a b h
    unfold charsBefore
    by_cases ha : c.utf8Size ≤ a
    · rw [if_pos ha, if_pos (le_trans ha h)]
      exact Nat.succ_le_succ (ih (by omega))
    · rw [if_neg ha]
      exact Nat.zero_le _

/-- All characters lie before the total byte length. -/
theorem charsBefore_utf8Len (t : List Char) :
    charsBefore t (utf8Len t) = t.length := by
  induction t with
  | nil => rfl
  | cons c t ih =>
    simp only [charsBefore, utf8Len]
    rw [if_pos (Nat.le_add_right _ _)]
    have h1 : c.utf8Size + utf8Len t - c.utf8Size = utf8Len t := by omega
    rw [h1, ih, List.length_cons]

/-- Along a `≤`-chain the last element dominates the starting point. -/
theorem chain_le_getLastD :
    ∀ (ks : List Nat) (a : Nat), List.Chain (· ≤ ·) a ks → a ≤ ks.getLastD a := by
  intro ks
  induction ks with
  | nil => intro a _; exact le_refl a
  | cons k ks ih =>
    intro a h
    cases h with
    | cons hak h' =>
      rw [List.getLastD_cons]
      exact le_trans hak (ih k h')

/-- Consecutive take/drop segments along a `≤`-chain of character counts
concatenate to one segment. -/
theorem flatten_zipWith_segments (t : List Char) :
    ∀ (ks : List Nat) (a : Nat), List.Chain (· ≤ ·) a ks →
      (List.zipWith (fun x y => (t.drop x).take (y - x)) (a :: ks) ks).flatten
        = (t.drop a).take (ks.getLastD a - a) := by
  intro ks
  induction ks with
  | nil => intro a _; simp
  | cons k ks ih =>
    intro a h
    cases h with
    | cons hak h' =>
      rw [List.zipWith_cons_cons, List.flatten_cons, ih k h', List.getLastD_cons]
      have hkL : k ≤ ks.getLastD k := chain_le_getLastD ks k h'
      have hdrop : t.drop k = (t.drop a).drop (k - a) := by
        rw [List.drop_drop]
        congr 1
        omega
      rw [hdrop, ← List.take_add]
      congr 1
      omega

/-- `getLastD` commutes with `map`. -/
theorem getLastD_map (f : Nat → Nat) :
    ∀ (l : List Nat) (d : Nat), (l.map f).getLastD (f d) = f (l.getLastD d) := by
  intro l
  induction l with
  | nil => intro d; rfl
  | cons a l ih =>
    intro d
    rw [List.map_cons, List.getLastD_cons, List.getLastD_cons]
    exact ih a

/-- A strictly sorted list of naturals is a `≤`-chain from `0`. -/
theorem chain_le_zero_of_sorted (l : List Nat) (h : l.Sorted (· < ·)) :
    List.Chain (· ≤ ·) 0 l := by
  cases l with
  | nil => exact List.Chain.nil
  | cons x xs =>
    refine List.Chain.cons (Nat.zero_le x) ?_
    have h' : List.Chain (· < ·) x xs := List.chain'_iff_pairwise.mpr h
    exact List.Chain.imp (fun a b hab => le_of_lt hab) h'

/-- The slices between consecutive split offsets (starting at `0`) cover the
whole text whenever the offsets form a sorted list of boundaries ending at
the byte length. -/
theorem flatten_sliceBytes (t : List Char) (ks : List Nat)
    (hs : ks.Sorted (· < ·)) (hlast : ks.getLastD 0 = utf8Len t) :
    (List.zipWith (sliceBytes t) (0 :: ks) ks).flatten = t := by
  have hz : List.zipWith (sliceBytes t) (0 :: ks) ks
      = List.zipWith (fun x y => (t.drop x).take (y - x))
          ((0 :: ks).map (charsBefore t)) (ks.map (charsBefore t)) := by
    rw [List.zipWith_map]
    rfl
  have hmap0 : (0 :: ks).map (charsBefore t) = 0 :: ks.map (charsBefore t) := by
    rw [List.map_cons, charsBefore_zero]
  have hchain : List.Chain (· ≤ ·) 0 (ks.map (charsBefore t)) := by
    have h0 := chain_le_zero_of_sorted ks hs
    have h1 : List.Chain (· ≤ ·) (charsBefore t 0) (ks.map (charsBefore t)) := by
      rw [List.chain_map]
      exact List.Chain.imp (fun a b hab => charsBefore_mono t hab) h0
    rwa [charsBefore_zero] at h1
  rw [hz, hmap0, flatten_zipWith_segments t (ks.map (charsBefore t)) 0 hchain]
  have hL : (ks.map (charsBefore t)).getLastD 0 = t.length := by
    have := getLastD_map (charsBefore t) ks 0
    rw [charsBefore_zero] at this
    rw [this, hlast, charsBefore_utf8Len]
  rw [hL, List.drop_zero, Nat.sub_zero, List.take_length]

/-- The state of the `measure_text_wrap` loop after consuming the whole
text (skipping the first character, as the Rust code does). -/
def wrapFold (m : List Char → Rat) (mw fs lh : Rat) (text : List Char) : WrapState :=
  ((charIndices text).drop 1).foldl (wrapStep m (max mw (fs * 2)) fs lh text)
    ⟨[], fs, 0, 0, 0⟩

/-- `measure_text_wrap` returns the loop's splits, extended by a final
split at `text.len()` when a line remains open. -/
theorem measure_text_wrap_splits_eq (m : List Char → Rat) (mw fs lh : Rat)
    (text : List Char) :
    (measure_text_wrap m mw fs lh text).splits
      = if (wrapFold m mw fs lh text).lineStart < utf8Len text
        then (wrapFold m mw fs lh text).splits ++ [utf8Len text]
        else (wrapFold m mw fs lh text).splits := by
  unfold measure_text_wrap wrapFold
  dsimp only
  split <;> rfl

/-- On a non-empty text the loop state satisfies the wrap invariant. -/
theorem wrapFold_inv (m : List Char → Rat) (mw fs lh : Rat) (c0 : Char)
    (rest : List Char) :
    WrapInv (c0 :: rest) (wrapFold m mw fs lh (c0 :: rest)) := by
  have hlen0 : 0 < utf8Len (c0 :: rest) := by
    have := Char.utf8Size_pos c0
    simp only [utf8Len]
    omega
  have hInv0 : WrapInv (c0 :: rest) ⟨[], fs, 0, 0, 0⟩ := by
    refine ⟨List.sorted_nil, ?_, ?_, boundary_zero _, hlen0, hlen0⟩
    · intro s hs; exact absurd hs (List.not_mem_nil s)
    · intro s hs; exact absurd hs (List.not_mem_nil s)
  have hdrop : (charIndices (c0 :: rest)).drop 1
      = charIndicesAux c0.utf8Size rest := by
    simp [charIndices, charIndicesAux]
  have hall : ∀ p ∈ (charIndices (c0 :: rest)).drop 1,
      boundary (c0 :: rest) p.1 = true ∧ p.1 < utf8Len (c0 :: rest) := by
    intro p hp
    have hp' : p ∈ charIndices (c0 :: rest) := List.drop_subset 1 _ hp
    obtain ⟨i, c⟩ := p
    obtain ⟨j, hj, hb, hlt⟩ := mem_charIndicesAux (c0 :: rest) 0 i c hp'
    have hij : i = j := by omega
    rw [hij]
    exact ⟨hb, hlt⟩
  have hchain : List.Chain (· < ·) (0 : Nat)
      (((charIndices (c0 :: rest)).drop 1).map Prod.fst) := by
    rw [hdrop]
    exact chain_charIndicesAux rest c0.utf8Size 0 (Char.utf8Size_pos c0)
  exact foldl_wrapStep_inv m (max mw (fs * 2)) fs lh (c0 :: rest)
    ((charIndices (c0 :: rest)).drop 1) ⟨[], fs, 0, 0, 0⟩ hInv0 hall hchain

/-- C10: for a non-empty text, `measure_text_wrap` returns a strictly
increasing list of byte offsets that are all character boundaries and whose
last element is `text.len()`, and the per-line slices taken between
consecutive split offsets concatenate back to the whole text; for the
empty text the splits list is empty. -/
theorem measure_text_wrap_splits_spec (m : List Char → Rat) (mw fs lh : Rat)
    (text : List Char) :
    ((measure_text_wrap m mw fs lh text).splits.Sorted (· < ·))
    ∧ (∀ s ∈ (measure_text_wrap m mw fs lh text).splits, boundary text s = true)
    ∧ (text ≠ [] →
        (measure_text_wrap m mw fs lh text).splits.getLast? = some (utf8Len text))
    ∧ (text = [] → (measure_text_wrap m mw fs lh text).splits = [])
    ∧ (text ≠ [] →
        (List.zipWith (sliceBytes text)
          (0 :: (measure_text_wrap m mw fs lh text).splits)
          (measure_text_wrap m mw fs lh text).splits).flatten = text) := by
  cases text with
  | nil =>
    have h0 : (measure_text_wrap m mw fs lh []).splits = [] := rfl
    refine ⟨?_, ?_, ?_, ?_, ?_⟩
    · rw [h0]; exact List.sorted_nil
    · rw [h0]; intro s hs; exact absurd hs (List.not_mem_nil s)
    · intro h; exact absurd rfl h
    · intro _; exact h0
    · intro h; exact absurd rfl h
  | cons c0 rest =>
    have hInvF := wrapFold_inv m mw fs lh c0 rest
    have hsp : (measure_text_wrap m mw fs lh (c0 :: rest)).splits
        = (wrapFold m mw fs lh (c0 :: rest)).splits ++ [utf8Len (c0 :: rest)] := by
      rw [measure_text_wrap_splits_eq, if_pos hInvF.ls_lt]
    have hsorted : ((wrapFold m mw fs lh (c0 :: rest)).splits
        ++ [utf8Len (c0 :: rest)]).Sorted (· < ·) := by
      refine List.pairwise_append.mpr ⟨hInvF.sorted, List.pairwise_singleton _ _, ?_⟩
      intro a ha b hb
      have hbL : b = utf8Len (c0 :: rest) := by simpa using hb
      rw [hbL]
      exact lt_trans (hInvF.lt_last a ha) hInvF.last_lt
    refine ⟨?_, ?_, ?_, ?_, ?_⟩
    · rw [hsp]; exact hsorted
    · rw [hsp]
      intro s hs
      rcases List.mem_append.mp hs with hs | hs
      · exact hInvF.bnd s hs
      · have : s = utf8Len (c0 :: rest) := by simpa using hs
        rw [this]
        exact boundary_utf8Len _
    · intro _
      rw [hsp]
      exact List.getLast?_concat _
    · intro h; exact absurd h (by simp)
    · intro _
      rw [hsp]
      refine flatten_sliceBytes (c0 :: rest) _ hsorted ?_
      rw [List.getLastD_eq_getLast?, List.getLast?_concat]
      rfl

/-- Witness for C10 at the two-character text `"ab"` (and, for the empty
clause, at `""` through the same theorem instance being applicable): the
splits are `[2]`, strictly sorted, on boundaries, ending at the byte
length, and the slices rebuild the text. -/
theorem measure_text_wrap_splits_spec_witness :
    (((measure_text_wrap (fun _ => 0) 10 1 0 ['a', 'b']).splits.Sorted (· < ·))
    ∧ (∀ s ∈ (measure_text_wrap (fun _ => 0) 10 1 0 ['a', 'b']).splits,
        boundary ['a', 'b'] s = true)
    ∧ (measure_text_wrap (fun _ => 0) 10 1 0 ['a', 'b']).splits.getLast?
        = some (utf8Len ['a', 'b'])
    ∧ (List.zipWith (sliceBytes ['a', 'b'])
        (0 :: (measure_text_wrap (fun _ => 0) 10 1 0 ['a', 'b']).splits)
        (measure_text_wrap (fun _ => 0) 10 1 0 ['a', 'b']).splits).flatten
        = ['a', 'b'])
    ∧ (measure_text_wrap (fun _ => 0) 10 1 0 ([] : List Char)).splits = [] := by
  have h := measure_text_wrap_splits_spec (fun _ => 0) 10 1 0 ['a', 'b']
  have hnil := measure_text_wrap_splits_spec (fun _ => 0) 10 1 0 ([] : List Char)
  refine ⟨⟨h.1, h.2.1, h.2.2.1 (by decide), h.2.2.2.2 (by decide)⟩, hnil.2.2.2.1 rfl⟩
